import Mathlib

/-!
Verification of the in-memory document edit engine of the `ox` editor:
the edit event log, the snapshot-based undo/redo manager (`kaolinite/src/event.rs`),
the search/replace engine and the highlight-sync contract (`src/editor.rs`).

Rust `String` values carried by events are modelled as lists of characters,
and the `ropey::Rope` buffer as a list of lines (value semantics of the text).
-/

/-- A line of text: Rust `String` payloads modelled as a list of characters. -/
abbrev Line := List Char

/-- The text buffer content: `ropey::Rope` modelled as a list of lines. -/
abbrev Rope := List Line

/-- `kaolinite::utils::Loc`: x is the character offset within line y. -/
structure Loc where
  x : Nat
  y : Nat
deriving DecidableEq, Repr

/-- Smart constructor mirroring `Loc::at(x, y)`. -/
def Loc.at (x y : Nat) : Loc := ⟨x, y⟩

/-- The cursor: the part of `kaolinite::document::Cursor` that snapshots
restore is its location (`snapshot.cursor.loc`), so it is modelled as a `Loc`. -/
abbrev Cursor := Loc

/-- `kaolinite::event::Event`: the six primitive reversible mutation events. -/
inductive Event where
  | Insert : Loc → Line → Event
  | Delete : Loc → Line → Event
  | InsertLine : Nat → Line → Event
  | DeleteLine : Nat → Line → Event
  | SplitDown : Loc → Event
  | SpliceUp : Loc → Event
deriving DecidableEq, Repr

/-- `Event::reverse` from `kaolinite/src/event.rs`: the opposite event,
for purposes of undoing. -/
def Event.reverse : Event → Event
  | .Insert loc ch => .Delete loc ch
  | .Delete loc ch => .Insert loc ch
  | .InsertLine loc st => .DeleteLine loc st
  | .DeleteLine loc st => .InsertLine loc st
  | .SplitDown loc => .SpliceUp loc
  | .SpliceUp loc => .SplitDown loc

/-- `Event::loc` from `kaolinite/src/event.rs`: the anchor location of an event. -/
def Event.loc : Event → Loc
  | .Insert loc _ => loc
  | .Delete loc _ => loc
  | .InsertLine loc _ => ⟨0, loc⟩
  | .DeleteLine loc _ => ⟨0, loc⟩
  | .SplitDown loc => loc
  | .SpliceUp loc => loc

/-- `kaolinite::event::Snapshot`: immutable capture of buffer content and cursor. -/
structure Snapshot where
  content : Rope
  cursor : Cursor
deriving DecidableEq, Repr

/-- `kaolinite::event::UndoMgmt`: dirty bit, undo/redo stacks of snapshots
(Rust `Vec` push/pop at the back modelled as list append/removal at the back),
and the on-disk depth marker. -/
structure UndoMgmt where
  is_dirty : Bool
  undo : List Snapshot
  redo : List Snapshot
  on_disk : Nat
deriving DecidableEq, Repr

/-- `UndoMgmt::default()` (from `#[derive(Default)]`). -/
def UndoMgmt.default : UndoMgmt :=
  { is_dirty := false, undo := [], redo := [], on_disk := 0 }

/-- `UndoMgmt::set_dirty`: clear the redo stack and set the dirty flag. -/
def UndoMgmt.set_dirty (u : UndoMgmt) : UndoMgmt :=
  { u with redo := [], is_dirty := true }

/-- `UndoMgmt::commit`: if dirty, clear the dirty flag and push the given
snapshot onto the undo stack; otherwise do nothing. -/
def UndoMgmt.commit (u : UndoMgmt) (current_snapshot : Snapshot) : UndoMgmt :=
  if u.is_dirty then
    { u with is_dirty := false, undo := u.undo ++ [current_snapshot] }
  else u

/-- `UndoMgmt::undo`: commit pending state first; if fewer than two undo
entries remain, return nothing; otherwise pop the top of the undo stack onto
the redo stack and return the new top.  Named `undoStep` because the Rust
method shares its name with the `undo` field. -/
def UndoMgmt.undoStep (u : UndoMgmt) (current_snapshot : Snapshot) :
    UndoMgmt × Option Snapshot :=
  let u := u.commit current_snapshot
  if u.undo.length < 2 then (u, none)
  else
    match u.undo.getLast? with
    | none => (u, none)
    | some snapshot_to_remove =>
      let u' := { u with undo := u.undo.dropLast }
      match u'.undo.getLast? with
      | none => (u', none)
      | some snapshot_to_apply =>
        ({ u' with redo := u'.redo ++ [snapshot_to_remove] }, some snapshot_to_apply)

/-- `UndoMgmt::redo`: pop the top of the redo stack, push it back onto the
undo stack and return it, or nothing if the redo stack is empty.  Named
`redoStep` because the Rust method shares its name with the `redo` field. -/
def UndoMgmt.redoStep (u : UndoMgmt) : UndoMgmt × Option Snapshot :=
  match u.redo.getLast? with
  | none => (u, none)
  | some ev =>
    ({ u with redo := u.redo.dropLast, undo := u.undo ++ [ev] }, some ev)

/-- `UndoMgmt::saved`: record the current undo-stack depth as the on-disk marker. -/
def UndoMgmt.saved (u : UndoMgmt) : UndoMgmt :=
  { u with on_disk := u.undo.length }

/-- `UndoMgmt::at_file`: whether the undo-stack depth equals the on-disk marker. -/
def UndoMgmt.at_file (u : UndoMgmt) : Bool :=
  u.undo.length == u.on_disk

/-- Modelled from the spec: the buffer effect of `Insert(loc, s)` on a single
line (`kaolinite`'s buffer mutation code is not under `src/`): insert the
string at character offset `x`, failing if `x` is beyond the end of the line. -/
def insertInLine (x : Nat) (s l : Line) : Option Line :=
  if x ≤ l.length then some (l.take x ++ s ++ l.drop x) else none

/-- Modelled from the spec: the buffer effect of `Delete(loc, s)` on a single
line: remove `s` starting at offset `x`, failing if the text at that range is
not `s` (removing `s` requires `s` to be present there). -/
def deleteInLine (x : Nat) (s l : Line) : Option Line :=
  if x + s.length ≤ l.length ∧ (l.drop x).take s.length = s then
    some (l.take x ++ l.drop (x + s.length))
  else none

/-- Apply a line-content transformation to line `y` of the buffer, failing if
line `y` does not exist. -/
def editLineAt (f : Line → Option Line) : Nat → Rope → Option Rope
  | _, [] => none
  | 0, l :: ls => (f l).map (· :: ls)
  | y + 1, l :: ls => (editLineAt f y ls).map (l :: ·)

/-- Modelled from the spec: `InsertLine(y, s)` inserts a new line at index `y`
(index equal to the line count denotes the append position). -/
def insertLineAt : Nat → Line → Rope → Option Rope
  | 0, s, ls => some (s :: ls)
  | _ + 1, _, [] => none
  | y + 1, s, l :: ls => (insertLineAt y s ls).map (l :: ·)

/-- Modelled from the spec: `DeleteLine(y, s)` removes line `y`, whose content
is `s`. -/
def deleteLineAt : Nat → Line → Rope → Option Rope
  | _, _, [] => none
  | 0, s, l :: ls => if l = s then some ls else none
  | y + 1, s, l :: ls => (deleteLineAt y s ls).map (l :: ·)

/-- Modelled from the spec: `SplitDown(loc)` splits line `y` at offset `x`
into two lines. -/
def splitDownAt : Nat → Nat → Rope → Option Rope
  | _, _, [] => none
  | x, 0, l :: ls => if x ≤ l.length then some (l.take x :: l.drop x :: ls) else none
  | x, y + 1, l :: ls => (splitDownAt x y ls).map (l :: ·)

/-- Modelled from the spec: `SpliceUp(loc)` merges line `y` with the adjacent
line, with `x` the join column.  The orientation (line `y + 1` is appended to
line `y`, `x` = length of line `y`) is the one the editor's backspace handler
in `src/editor.rs` uses when it emits `SpliceUp`, and the one under which
`SpliceUp(loc)` exactly undoes `SplitDown(loc)` at the same location. -/
def spliceUpAt : Nat → Nat → Rope → Option Rope
  | _, _, [] => none
  | _, 0, [_] => none
  | x, 0, a :: b :: ls => if x = a.length then some ((a ++ b) :: ls) else none
  | x, y + 1, l :: ls => (spliceUpAt x y ls).map (l :: ·)

/-- Modelled from the spec: the buffer transformation of each of the six
primitive events, per the effect table of the spec (the `Document` mutation
code of `kaolinite` is not under `src/`).  Fallible: out-of-range coordinates
or mismatched recorded text yield `none` with no partial change. -/
def applyEvent : Event → Rope → Option Rope
  | .Insert loc s, r => editLineAt (insertInLine loc.x s) loc.y r
  | .Delete loc s, r => editLineAt (deleteInLine loc.x s) loc.y r
  | .InsertLine y s, r => insertLineAt y s r
  | .DeleteLine y s, r => deleteLineAt y s r
  | .SplitDown loc, r => splitDownAt loc.x loc.y r
  | .SpliceUp loc, r => spliceUpAt loc.x loc.y r

/-- The parts of `kaolinite::Document` the undo/redo and search/replace
subsystems act on: buffer (`file`), cursor and undo manager (field names from
the source; viewport/char-pointer bookkeeping omitted as display-only). -/
structure Document where
  file : Rope
  cursor : Cursor
  undo_mgmt : UndoMgmt
deriving DecidableEq, Repr

/-- `Document::take_snapshot` from `kaolinite/src/event.rs`. -/
def Document.take_snapshot (d : Document) : Snapshot :=
  { content := d.file, cursor := d.cursor }

/-- `Document::apply_snapshot` from `kaolinite/src/event.rs`: restore buffer
and cursor (char-pointer/viewport recalculation omitted as display-only). -/
def Document.apply_snapshot (d : Document) (snapshot : Snapshot) : Document :=
  { d with file := snapshot.content, cursor := snapshot.cursor }

/-- Modelled from the spec: `Document::exe`, the sole mutation entry point
(not under `src/`): apply the event to the buffer and mark the undo manager
dirty.  The spec specifies no cursor transformation for raw event
application, so the cursor is carried unchanged (the editor moves it
explicitly via `move_to`). -/
def Document.exe (d : Document) (e : Event) : Option Document :=
  (applyEvent e d.file).map fun r =>
    { d with file := r, undo_mgmt := d.undo_mgmt.set_dirty }

/-- Modelled from the spec: `Document::move_to` places the cursor at a
location (viewport scrolling omitted as display-only). -/
def Document.move_to (d : Document) (loc : Loc) : Document :=
  { d with cursor := loc }

/-- Modelled from the spec: `Document::commit` seals pending dirty edits by
delegating to the undo manager with the current snapshot. -/
def Document.commitDoc (d : Document) : Document :=
  { d with undo_mgmt := d.undo_mgmt.commit d.take_snapshot }

/-- Modelled from the spec: `Document::undo` delegates to the undo manager
with the current snapshot and applies the returned snapshot, if any. -/
def Document.undoDoc (d : Document) : Document :=
  match d.undo_mgmt.undoStep d.take_snapshot with
  | (u, some s) => ({ d with undo_mgmt := u }).apply_snapshot s
  | (u, none) => { d with undo_mgmt := u }

/-- Modelled from the spec: `Document::replace(loc, old, new)` first
re-validates that `old` still matches the buffer content at `loc`; if the
check fails the operation fails with no mutation at all; otherwise it routes
the replacement through `exe` (delete the old text, insert the new), so the
undo manager is marked dirty.  Returns the resulting document and whether the
replacement happened. -/
def Document.replace (d : Document) (loc : Loc) (old new : Line) :
    Document × Bool :=
  if (d.file[loc.y]?.map fun l => (l.drop loc.x).take old.length) = some old then
    match d.exe (.Delete loc old) with
    | some d1 =>
      match d1.exe (.Insert loc new) with
      | some d2 => (d2, true)
      | none => (d, false)
    | none => (d, false)
  else (d, false)

/-- `kaolinite`'s `Match`: a search hit, its location and matched text. -/
structure SearchMatch where
  loc : Loc
  text : Line
deriving DecidableEq, Repr

/-- Whether `t` occurs in line `l` at character offset `x`. -/
def lineMatches (t l : Line) (x : Nat) : Bool :=
  decide (x + t.length ≤ l.length) && ((l.drop x).take t.length == t)

/-- All locations at which `t` occurs in the buffer, in document order. -/
def matchesIn (t : Line) (r : Rope) : List Loc :=
  (r.enum.map fun p =>
    ((List.range (p.2.length + 1)).filter fun x => lineMatches t p.2 x).map
      fun x => Loc.mk x p.1).flatten

/-- Whether `p` is strictly after `c` in document order. -/
def locAfter (c p : Loc) : Bool :=
  decide (c.y < p.y) || (decide (p.y = c.y) && decide (c.x < p.x))

/-- Modelled from the spec: `Document::next_match(target, _)` scans forward
from the cursor position (exclusive), wrapping at the document bounds, and
returns the first hit, or nothing if the target is empty or absent. -/
def Document.next_match (d : Document) (t : Line) : Option SearchMatch :=
  if t.isEmpty then none
  else
    let hits := matchesIn t d.file
    match hits.filter (fun p => locAfter d.cursor p) with
    | m :: _ => some ⟨m, t⟩
    | [] => hits.head?.map fun m => ⟨m, t⟩

/-- The loop of `Editor::do_replace_all` (`src/editor.rs` lines 975-979):
repeatedly find the next match and replace it against the already-mutated
buffer, with no intermediate commit.  The Rust `while let` loop is unbounded;
fuel bounds the recursion in the model. -/
def doReplaceAllLoop : Nat → Line → Line → Document → Document
  | 0, _, _, d => d
  | fuel + 1, target, into, d =>
    match d.next_match target with
    | none => d
    | some mtch => doReplaceAllLoop fuel target into (d.replace mtch.loc mtch.text into).1

/-- `Editor::do_replace_all` from `src/editor.rs`: commit pending edits as a
boundary, move to the document start, then run the replacement loop
(highlighter notifications omitted here; they do not touch the document). -/
def do_replace_all (fuel : Nat) (target into : Line) (d : Document) : Document :=
  doReplaceAllLoop fuel target into ((d.commitDoc).move_to (Loc.at 0 0))

/-- The external incremental tokenizer's view of the document: `synoptic`'s
`line_ref`, the sequence of lines it has been fed.  Modelled from the spec's
consumed-collaborator contract (the `synoptic` crate is an external
collaborator, not under `src/`). -/
abbrev Highlighter := List Line

/-- Tokenizer call `append(text)`: a new line at the end. -/
def Highlighter.append (h : Highlighter) (t : Line) : Highlighter := h ++ [t]

/-- Tokenizer call `edit(index, text)`: replace the content of line `index`
(no effect on lines that the tokenizer does not know about). -/
def Highlighter.edit (h : Highlighter) (i : Nat) (t : Line) : Highlighter :=
  h.set i t

/-- Tokenizer call `insert_line(index, text)`: insert a line at `index`. -/
def Highlighter.insert_line (h : Highlighter) (i : Nat) (t : Line) : Highlighter :=
  h.insertIdx i t

/-- Tokenizer call `remove_line(index)`: remove the line at `index`. -/
def Highlighter.remove_line (h : Highlighter) (i : Nat) : Highlighter :=
  h.eraseIdx i

/-- The editor state the highlight-sync contract relates: the active document
and its tokenizer (`Editor.doc` / `Editor.highlighter` at the active index). -/
structure EditorState where
  doc : Document
  hl : Highlighter
deriving DecidableEq, Repr

/-- The loop body of `Editor::reload_highlight` (`src/editor.rs` lines
982-986): feed line `i`, then the following lines, to the tokenizer through
`edit` calls. -/
def reloadFrom : Nat → List Line → Highlighter → Highlighter
  | _, [], h => h
  | i, t :: ts, h => reloadFrom (i + 1) ts (h.edit i t)

/-- `Editor::reload_highlight` from `src/editor.rs`: re-send every buffer
line to the tokenizer via `edit`, keyed by its index. -/
def Editor.reload_highlight (st : EditorState) : EditorState :=
  { st with hl := reloadFrom 0 st.doc.file st.hl }

/-- Line `i` of the document's buffer (`self.doc[self.ptr].lines[i]`). -/
def Document.lineAt (d : Document) (i : Nat) : Line := d.file.getD i []

/-- `Editor::enter` from `src/editor.rs` lines 731-748: commit, then either
split the current line (notifying the tokenizer with one `insert_line` for
the new line and one `edit` for the changed line) or, on the phantom line at
the bottom, create a new row (one `append`).  The cursor move to the start of
the new line is modelled from the spec, which leaves `exe`'s cursor update to
the document layer. -/
def Editor.enter (st : EditorState) : EditorState :=
  let d := st.doc.commitDoc
  if d.cursor.y ≠ d.file.length then
    match d.exe (.SplitDown d.cursor) with
    | some d1 =>
      let d2 := { d1 with cursor := Loc.at 0 (d.cursor.y + 1) }
      let hl1 := st.hl.insert_line (d.cursor.y + 1) (d2.lineAt (d.cursor.y + 1))
      let hl2 := hl1.edit d.cursor.y (d2.lineAt d.cursor.y)
      { doc := d2, hl := hl2 }
    | none => { st with doc := d }
  else
    match d.exe (.InsertLine d.file.length []) with
    | some d1 => { doc := d1, hl := st.hl.append [] }
    | none => { st with doc := d }

/-- `Editor::undo` from `src/editor.rs` lines 996-1000: undo on the document,
then `reload_highlight`. -/
def Editor.undo (st : EditorState) : EditorState :=
  Editor.reload_highlight { st with doc := st.doc.undoDoc }

/-- The operations of the undo-manager state machine, with the snapshot
arguments the document layer passes in. -/
inductive UndoOp where
  | dirty : UndoOp
  | commitOp : Snapshot → UndoOp
  | undoOp : Snapshot → UndoOp
  | redoOp : UndoOp
  | savedOp : UndoOp
deriving DecidableEq, Repr

/-- One step of the undo-manager state machine. -/
def runOp (u : UndoMgmt) : UndoOp → UndoMgmt
  | .dirty => u.set_dirty
  | .commitOp s => u.commit s
  | .undoOp s => (u.undoStep s).1
  | .redoOp => u.redoStep.1
  | .savedOp => u.saved

/-- Run a sequence of undo-manager operations from a starting state. -/
def runOps (ops : List UndoOp) (u : UndoMgmt) : UndoMgmt :=
  ops.foldl runOp u

/-- The no-branching-redo invariant: whenever the dirty flag is set, the redo
stack is empty. -/
def UndoInv (u : UndoMgmt) : Prop :=
  u.is_dirty = true → u.redo = []

/-- Sample snapshots for concrete witnesses. -/
def snapA : Snapshot := { content := [['a']], cursor := Loc.at 0 0 }

def snapB : Snapshot := { content := [['b']], cursor := Loc.at 0 0 }

def snapC : Snapshot := { content := [['c']], cursor := Loc.at 0 0 }

/-- An undo manager with a floor entry and one committed edit. -/
def sampleUndoMgmt : UndoMgmt :=
  { is_dirty := false, undo := [snapA, snapB], redo := [], on_disk := 2 }

/-- A document whose buffer holds the single line `aaa`, with a pending
(uncommitted) dirty edit relative to the floor snapshot `z`: the state
`do_replace_all` starts from in the replace-all scenario. -/
def docAAA : Document :=
  { file := [['a', 'a', 'a']]
    cursor := Loc.at 0 0
    undo_mgmt :=
      { is_dirty := true
        undo := [{ content := [['z']], cursor := Loc.at 0 0 }]
        redo := []
        on_disk := 1 } }

/-- A freshly opened single-line document `ab` with cursor after the `a`,
tokenizer run on the initial lines, undo stack seeded with the initial
snapshot. -/
def stAB : EditorState :=
  { doc :=
      { file := [['a', 'b']]
        cursor := Loc.at 1 0
        undo_mgmt :=
          { is_dirty := false
            undo := [{ content := [['a', 'b']], cursor := Loc.at 1 0 }]
            redo := []
            on_disk := 1 } }
    hl := [['a', 'b']] }

/-- A document for the stale-replace witness: single line `ab`, clean state. -/
def docAB : Document :=
  { file := [['a', 'b']]
    cursor := Loc.at 0 0
    undo_mgmt :=
      { is_dirty := false
        undo := [{ content := [['a', 'b']], cursor := Loc.at 0 0 }]
        redo := []
        on_disk := 1 } }

/-- A document for the event round-trip witness: lines `abc`, `def`. -/
def docABC : Document :=
  { file := [['a', 'b', 'c'], ['d', 'e', 'f']]
    cursor := Loc.at 1 0
    undo_mgmt := UndoMgmt.default }

/-- The document that results from inserting `X` at `{x:1, y:0}` in `docABC`. -/
def docABCins : Document :=
  { file := [['a', 'X', 'b', 'c'], ['d', 'e', 'f']]
    cursor := Loc.at 1 0
    undo_mgmt := UndoMgmt.default.set_dirty }

theorem head?_dropLast_of_two_le {α : Type} :
    ∀ l : List α, 2 ≤ l.length → l.dropLast.head? = l.head?
  | [], h => by simp at h
  | [a], h => by simp at h
  | a :: b :: t, _ => by simp

theorem UndoMgmt.undoStep_eq (u : UndoMgmt) (s : Snapshot) :
    u.undoStep s =
      (let u1 := u.commit s
       if u1.undo.length < 2 then (u1, none)
       else ({ u1 with undo := u1.undo.dropLast,
                       redo := u1.redo ++ u1.undo.getLast?.toList },
             u1.undo.dropLast.getLast?)) := by
  unfold UndoMgmt.undoStep
  generalize u.commit s = u1
  by_cases h2 : u1.undo.length < 2
  · simp [h2]
  · simp only [if_neg h2]
    obtain hnil | ⟨L, b, hLb⟩ := u1.undo.eq_nil_or_concat
    · rw [hnil] at h2; simp at h2
    · obtain hnil2 | ⟨L', b', hLb'⟩ := L.eq_nil_or_concat
      · subst hnil2
        rw [hLb] at h2; simp at h2
      · subst hLb'
        simp only [List.concat_eq_append] at hLb
        rw [hLb, List.getLast?_concat, List.dropLast_concat, List.getLast?_concat]
        simp

theorem commit_is_dirty_false (u : UndoMgmt) (s : Snapshot) :
    (u.commit s).is_dirty = false := by
  unfold UndoMgmt.commit
  cases h : u.is_dirty <;> simp [h]

theorem undoStep_is_dirty_false (u : UndoMgmt) (s : Snapshot) :
    ((u.undoStep s).1).is_dirty = false := by
  rw [UndoMgmt.undoStep_eq]
  by_cases h2 : (u.commit s).undo.length < 2 <;>
    simp [h2, commit_is_dirty_false]

theorem redoStep_is_dirty (u : UndoMgmt) :
    (u.redoStep.1).is_dirty = u.is_dirty := by
  unfold UndoMgmt.redoStep
  cases hg : u.redo.getLast? <;> simp

/-- C1: `undo(s)` first performs `commit(s)`; if after that commit the undo
stack holds fewer than two entries it returns nothing and the state is the
committed state; otherwise it pops the top of the undo stack, pushes that
popped snapshot onto the redo stack and returns the new top — so the head
(floor) entry is preserved and the undo stack never becomes empty. -/
theorem undo_commits_pops_and_preserves_floor (u : UndoMgmt) (s : Snapshot) :
    u.undoStep s =
      (let u1 := u.commit s
       if u1.undo.length < 2 then (u1, none)
       else ({ u1 with undo := u1.undo.dropLast,
                       redo := u1.redo ++ u1.undo.getLast?.toList },
             u1.undo.dropLast.getLast?)) ∧
    (u.undoStep s).1.undo.head? = (u.commit s).undo.head? ∧
    ((u.commit s).undo ≠ [] → (u.undoStep s).1.undo ≠ []) := by
  refine ⟨UndoMgmt.undoStep_eq u s, ?_, ?_⟩
  · rw [UndoMgmt.undoStep_eq u s]
    by_cases h2 : (u.commit s).undo.length < 2
    · simp [h2]
    · simp only [if_neg h2]
      simpa using head?_dropLast_of_two_le (u.commit s).undo (by omega)
  · intro hne
    rw [UndoMgmt.undoStep_eq u s]
    by_cases h2 : (u.commit s).undo.length < 2
    · simpa [h2] using hne
    · simp only [if_neg h2]
      have hlen : 0 < (u.commit s).undo.dropLast.length := by
        rw [List.length_dropLast]; omega
      simpa using List.length_pos.mp hlen

theorem undo_commits_pops_and_preserves_floor_witness :
    (sampleUndoMgmt.commit snapC).undo ≠ [] ∧
      (sampleUndoMgmt.undoStep snapC).1.undo ≠ [] :=
  ⟨by decide,
   (undo_commits_pops_and_preserves_floor sampleUndoMgmt snapC).2.2 (by decide)⟩

/-- C3: `reverse` on `Event` is an involution. -/
theorem event_reverse_involution (e : Event) : e.reverse.reverse = e := by
  cases e <;> rfl

/-- C6: `set_dirty` leaves the redo stack empty and the dirty flag true and
leaves the undo stack and the on-disk marker unchanged; in particular any
dirty-setting mutation performed right after an undo leaves the redo stack
empty. -/
theorem set_dirty_clears_redo (u : UndoMgmt) :
    u.set_dirty =
      { is_dirty := true, undo := u.undo, redo := [], on_disk := u.on_disk } ∧
    ∀ s : Snapshot, ((u.undoStep s).1.set_dirty).redo = [] :=
  ⟨rfl, fun _ => rfl⟩

/-- C7: `commit(s)` pushes `s` and clears the dirty flag exactly when the
dirty flag is set and is a no-op otherwise, so a second consecutive commit
changes nothing and two consecutive commits push exactly one entry from a
dirty state and none otherwise. -/
theorem commit_pushes_iff_dirty (u : UndoMgmt) (s s2 : Snapshot) :
    u.commit s =
      (if u.is_dirty then { u with is_dirty := false, undo := u.undo ++ [s] }
       else u) ∧
    (u.commit s).commit s2 = u.commit s ∧
    ((u.commit s).commit s2).undo.length =
      (if u.is_dirty then u.undo.length + 1 else u.undo.length) := by
  refine ⟨rfl, ?_, ?_⟩ <;>
    cases h : u.is_dirty <;>
      simp [UndoMgmt.commit, h]

/-- C8: `saved()` sets the on-disk marker to the undo-stack depth and
`at_file()` compares depth with the marker, so `at_file` holds right after
`saved` and fails after a later committed edit; save-state equality is purely
a matter of stack depth. -/
theorem saved_marks_depth_at_file (u : UndoMgmt) (s : Snapshot) :
    u.saved.on_disk = u.undo.length ∧
    u.at_file = (u.undo.length == u.on_disk) ∧
    u.saved.at_file = true ∧
    ((u.saved.set_dirty).commit s).at_file = false := by
  refine ⟨rfl, rfl, ?_, ?_⟩
  · simp [UndoMgmt.saved, UndoMgmt.at_file]
  · simp [UndoMgmt.saved, UndoMgmt.at_file, UndoMgmt.set_dirty, UndoMgmt.commit]

theorem undoInv_preserved (u : UndoMgmt) (hp : UndoInv u) (op : UndoOp) :
    UndoInv (runOp u op) := by
  cases op with
  | dirty => intro _; rfl
  | commitOp s =>
    intro hd
    exact absurd hd (by simp [runOp, commit_is_dirty_false])
  | undoOp s =>
    intro hd
    exact absurd hd (by simp [runOp, undoStep_is_dirty_false])
  | redoOp =>
    by_cases h : u.is_dirty = true
    · have hr := hp h
      intro _
      simp [runOp, UndoMgmt.redoStep, hr]
    · intro hd
      rw [show runOp u .redoOp = u.redoStep.1 from rfl] at hd
      rw [redoStep_is_dirty] at hd
      exact absurd hd h
  | savedOp => intro hd; exact hp hd

/-- C10: in every undo-manager state reachable from the default state by any
sequence of `set_dirty`, `commit`, `undo`, `redo` and `saved` operations, a
set dirty flag implies an empty redo stack. -/
theorem reachable_dirty_implies_redo_empty (ops : List UndoOp) :
    UndoInv (runOps ops UndoMgmt.default) := by
  have h : ∀ u, UndoInv u → UndoInv (runOps ops u) := by
    induction ops with
    | nil => intro u hu; exact hu
    | cons op rest ih => intro u hu; exact ih _ (undoInv_preserved u hu op)
  exact h _ (fun _ => rfl)

theorem insertInLine_deleteInLine (x : Nat) (s l l' : Line)
    (h : insertInLine x s l = some l') : deleteInLine x s l' = some l := by
  unfold insertInLine at h
  by_cases hx : x ≤ l.length
  · rw [if_pos hx] at h
    have hl' : l' = l.take x ++ s ++ l.drop x := by
      injection h with h
      exact h.symm
    have hxt : (l.take x).length = x := by
      rw [List.length_take]
      omega
    subst hl'
    have ht : (l.take x ++ s ++ l.drop x).take x = l.take x := by
      rw [List.append_assoc]
      exact List.take_left' hxt
    have hd : (l.take x ++ s ++ l.drop x).drop (x + s.length) = l.drop x :=
      List.drop_left' (by rw [List.length_append, hxt])
    have hmid : (l.take x ++ s ++ l.drop x).drop x = s ++ l.drop x := by
      rw [List.append_assoc]
      exact List.drop_left' hxt
    unfold deleteInLine
    rw [if_pos ?_]
    · rw [ht, hd, List.take_append_drop]
    · constructor
      · simp only [List.length_append, hxt]
        omega
      · rw [hmid, List.take_left]
  · rw [if_neg hx] at h
    exact absurd h (by simp)

theorem deleteInLine_insertInLine (x : Nat) (s l l' : Line)
    (h : deleteInLine x s l = some l') : insertInLine x s l' = some l := by
  unfold deleteInLine at h
  by_cases hx : x + s.length ≤ l.length ∧ (l.drop x).take s.length = s
  · rw [if_pos hx] at h
    obtain ⟨hlen, hs⟩ := hx
    have hl' : l' = l.take x ++ l.drop (x + s.length) := by
      injection h with h
      exact h.symm
    have hxt : (l.take x).length = x := by
      rw [List.length_take]
      omega
    subst hl'
    have hdx : l.drop x = s ++ l.drop (x + s.length) := by
      conv_lhs => rw [← List.take_append_drop s.length (l.drop x)]
      rw [hs, List.drop_drop]
    unfold insertInLine
    rw [if_pos ?_]
    · rw [List.take_left' hxt, List.drop_left' hxt, List.append_assoc, ← hdx,
        List.take_append_drop]
    · rw [List.length_append, hxt]
      omega
  · rw [if_neg hx] at h
    exact absurd h (by simp)

theorem editLineAt_inverse {f g : Line → Option Line}
    (hfg : ∀ l l', f l = some l' → g l' = some l) :
    ∀ (y : Nat) (r r' : Rope), editLineAt f y r = some r' → editLineAt g y r' = some r := by
  intro y
  induction y with
  | zero =>
    intro r r' h
    cases r with
    | nil => exact absurd h (by simp [editLineAt])
    | cons l ls =>
      simp only [editLineAt, Option.map_eq_some'] at h
      obtain ⟨l', hfl, hr'⟩ := h
      subst hr'
      simp only [editLineAt, Option.map_eq_some']
      exact ⟨l, hfg l l' hfl, rfl⟩
  | succ y ih =>
    intro r r' h
    cases r with
    | nil => exact absurd h (by simp [editLineAt])
    | cons l ls =>
      simp only [editLineAt, Option.map_eq_some'] at h
      obtain ⟨rs, hrec, hr'⟩ := h
      subst hr'
      simp only [editLineAt, Option.map_eq_some']
      exact ⟨ls, ih ls rs hrec, rfl⟩

theorem insertLineAt_deleteLineAt :
    ∀ (y : Nat) (s : Line) (r r' : Rope),
      insertLineAt y s r = some r' → deleteLineAt y s r' = some r := by
  intro y
  induction y with
  | zero =>
    intro s r r' h
    simp only [insertLineAt] at h
    injection h with h
    subst h
    simp [deleteLineAt]
  | succ y ih =>
    intro s r r' h
    cases r with
    | nil => exact absurd h (by simp [insertLineAt])
    | cons l ls =>
      simp only [insertLineAt, Option.map_eq_some'] at h
      obtain ⟨rs, hrec, hr'⟩ := h
      subst hr'
      simp only [deleteLineAt, Option.map_eq_some']
      exact ⟨ls, ih s ls rs hrec, rfl⟩

theorem deleteLineAt_insertLineAt :
    ∀ (y : Nat) (s : Line) (r r' : Rope),
      deleteLineAt y s r = some r' → insertLineAt y s r' = some r := by
  intro y
  induction y with
  | zero =>
    intro s r r' h
    cases r with
    | nil => exact absurd h (by simp [deleteLineAt])
    | cons l ls =>
      simp only [deleteLineAt] at h
      by_cases hl : l = s
      · rw [if_pos hl] at h
        injection h with h
        subst h
        subst hl
        simp [insertLineAt]
      · rw [if_neg hl] at h
        exact absurd h (by simp)
  | succ y ih =>
    intro s r r' h
    cases r with
    | nil => exact absurd h (by simp [deleteLineAt])
    | cons l ls =>
      simp only [deleteLineAt, Option.map_eq_some'] at h
      obtain ⟨rs, hrec, hr'⟩ := h
      subst hr'
      simp only [insertLineAt, Option.map_eq_some']
      exact ⟨ls, ih s ls rs hrec, rfl⟩

theorem splitDownAt_spliceUpAt :
    ∀ (y x : Nat) (r r' : Rope),
      splitDownAt x y r = some r' → spliceUpAt x y r' = some r := by
  intro y
  induction y with
  | zero =>
    intro x r r' h
    cases r with
    | nil => exact absurd h (by simp [splitDownAt])
    | cons l ls =>
      simp only [splitDownAt] at h
      by_cases hx : x ≤ l.length
      · rw [if_pos hx] at h
        injection h with h
        subst h
        have hxt : (l.take x).length = x := by
          rw [List.length_take]
          omega
        simp only [spliceUpAt]
        rw [if_pos hxt.symm]
        rw [List.take_append_drop]
      · rw [if_neg hx] at h
        exact absurd h (by simp)
  | succ y ih =>
    intro x r r' h
    cases r with
    | nil => exact absurd h (by simp [splitDownAt])
    | cons l ls =>
      simp only [splitDownAt, Option.map_eq_some'] at h
      obtain ⟨rs, hrec, hr'⟩ := h
      subst hr'
      have hrec' := ih x ls rs hrec
      cases rs with
      | nil => exact absurd hrec' (by simp [spliceUpAt])
      | cons a t =>
        simp only [spliceUpAt, Option.map_eq_some']
        exact ⟨ls, hrec', rfl⟩

theorem spliceUpAt_splitDownAt :
    ∀ (y x : Nat) (r r' : Rope),
      spliceUpAt x y r = some r' → splitDownAt x y r' = some r := by
  intro y
  induction y with
  | zero =>
    intro x r r' h
    match r with
    | [] => exact absurd h (by simp [spliceUpAt])
    | [a] => exact absurd h (by simp [spliceUpAt])
    | a :: b :: ls =>
      simp only [spliceUpAt] at h
      by_cases hx : x = a.length
      · rw [if_pos hx] at h
        injection h with h
        subst h
        simp only [splitDownAt]
        rw [if_pos (by rw [List.length_append]; omega)]
        rw [List.take_left' hx.symm, List.drop_left' hx.symm]
      · rw [if_neg hx] at h
        exact absurd h (by simp)
  | succ y ih =>
    intro x r r' h
    match r with
    | [] => exact absurd h (by simp [spliceUpAt])
    | l :: ls =>
      simp only [spliceUpAt, Option.map_eq_some'] at h
      obtain ⟨rs, hrec, hr'⟩ := h
      subst hr'
      have hrec' := ih x ls rs hrec
      cases ls with
      | nil => exact absurd hrec (by cases rs <;> simp [spliceUpAt])
      | cons a t =>
        simp only [splitDownAt, Option.map_eq_some']
        exact ⟨a :: t, hrec', rfl⟩

theorem applyEvent_reverse (e : Event) (r r' : Rope)
    (h : applyEvent e r = some r') : applyEvent e.reverse r' = some r := by
  cases e with
  | Insert loc s =>
    exact editLineAt_inverse (insertInLine_deleteInLine loc.x s) loc.y r r' h
  | Delete loc s =>
    exact editLineAt_inverse (deleteInLine_insertInLine loc.x s) loc.y r r' h
  | InsertLine y s => exact insertLineAt_deleteLineAt y s r r' h
  | DeleteLine y s => exact deleteLineAt_insertLineAt y s r r' h
  | SplitDown loc => exact splitDownAt_spliceUpAt loc.y loc.x r r' h
  | SpliceUp loc => exact spliceUpAt_splitDownAt loc.y loc.x r r' h

/-- C2: applying an event through the document mutation entry point and then
applying its reverse restores the buffer content and the cursor exactly. -/
theorem exe_then_reverse_restores (d d1 : Document) (e : Event)
    (h : d.exe e = some d1) :
    ∃ d2, d1.exe e.reverse = some d2 ∧ d2.file = d.file ∧ d2.cursor = d.cursor := by
  unfold Document.exe at h ⊢
  obtain ⟨r, hr, hd1⟩ := Option.map_eq_some'.mp h
  have h2 := applyEvent_reverse e d.file r hr
  subst hd1
  exact ⟨_, Option.map_eq_some'.mpr ⟨d.file, h2, rfl⟩, rfl, rfl⟩

theorem exe_then_reverse_restores_witness :
    docABC.exe (Event.Insert (Loc.at 1 0) ['X']) = some docABCins ∧
    ∃ d2, docABCins.exe (Event.Insert (Loc.at 1 0) ['X']).reverse = some d2 ∧
      d2.file = docABC.file ∧ d2.cursor = docABC.cursor :=
  ⟨by decide, exe_then_reverse_restores docABC docABCins _ (by decide)⟩

/-- C4: replace-all commits pending edits as a boundary before the batch,
then replaces every match against the already-mutated buffer with no
intermediate commit: on the document `aaa` (holding a pending dirty edit over
the floor snapshot `z`), replacing `a` with `bb` yields `bbbbbb`, exhausts
the matches, pushes no undo entry beyond the boundary commit, and a single
undo restores `aaa`. -/
theorem replace_all_single_undo_unit :
    (do_replace_all 10 ['a'] ['b', 'b'] docAAA).file =
      [['b', 'b', 'b', 'b', 'b', 'b']] ∧
    (do_replace_all 10 ['a'] ['b', 'b'] docAAA).next_match ['a'] = none ∧
    (do_replace_all 10 ['a'] ['b', 'b'] docAAA).undo_mgmt.undo =
      [{ content := [['z']], cursor := Loc.at 0 0 },
       { content := [['a', 'a', 'a']], cursor := Loc.at 0 0 }] ∧
    ((do_replace_all 10 ['a'] ['b', 'b'] docAAA).undoDoc).file =
      [['a', 'a', 'a']] := by
  refine ⟨?_, ?_, ?_, ?_⟩ <;> decide

/-- C5: a stale `replace` request — the recorded old text no longer matching
the buffer content at the location — fails without mutating the buffer, the
cursor or the undo state. -/
theorem stale_replace_no_mutation (d : Document) (loc : Loc) (old new : Line)
    (h : (d.file[loc.y]?.map fun l => (l.drop loc.x).take old.length) ≠ some old) :
    d.replace loc old new = (d, false) ∧
    (d.replace loc old new).1.file = d.file ∧
    (d.replace loc old new).1.cursor = d.cursor ∧
    (d.replace loc old new).1.undo_mgmt = d.undo_mgmt := by
  have he : d.replace loc old new = (d, false) := by
    unfold Document.replace
    rw [if_neg h]
  exact ⟨he, by rw [he], by rw [he], by rw [he]⟩

theorem stale_replace_no_mutation_witness :
    ((docAB.file[(Loc.at 0 0).y]?.map
        fun l => (l.drop (Loc.at 0 0).x).take (['z'] : Line).length) ≠
      some ['z']) ∧
    docAB.replace (Loc.at 0 0) ['z'] ['q'] = (docAB, false) :=
  ⟨by decide,
   (stale_replace_no_mutation docAB (Loc.at 0 0) ['z'] ['q'] (by decide)).1⟩

theorem reloadFrom_cons : ∀ (ts : List Line) (i : Nat) (t : Line) (h : List Line),
    reloadFrom (i + 1) ts (t :: h) = t :: reloadFrom i ts h := by
  intro ts
  induction ts with
  | nil => intro i t h; rfl
  | cons s ss ih =>
    intro i t h
    simp only [reloadFrom, Highlighter.edit, List.set_cons_succ]
    exact ih (i + 1) t (h.set i s)

theorem reloadFrom_length : ∀ (ts : List Line) (i : Nat) (h : List Line),
    (reloadFrom i ts h).length = h.length := by
  intro ts
  induction ts with
  | nil => intro i h; rfl
  | cons s ss ih =>
    intro i h
    simp only [reloadFrom, Highlighter.edit]
    rw [ih, List.length_set]

theorem reloadFrom_zero_eq : ∀ (ts h : List Line), h.length = ts.length →
    reloadFrom 0 ts h = ts := by
  intro ts
  induction ts with
  | nil =>
    intro h hh
    cases h with
    | nil => rfl
    | cons t h' => simp at hh
  | cons s ss ih =>
    intro h hh
    cases h with
    | nil => simp at hh
    | cons t h' =>
      simp only [reloadFrom, Highlighter.edit, List.set_cons_zero]
      rw [reloadFrom_cons]
      congr 1
      exact ih h' (by simpa using hh)

/-- C9 counterexample: pressing enter in the middle of the single-line
document `ab` and then undoing leaves the tokenizer with two lines while the
buffer has one — the per-mutation tokenizer notifications do not keep line
count and content in sync across an undo. -/
theorem undo_desyncs_highlighter :
    (Editor.undo (Editor.enter stAB)).doc.file = [['a', 'b']] ∧
    (Editor.undo (Editor.enter stAB)).hl = [['a', 'b'], ['b']] ∧
    (Editor.undo (Editor.enter stAB)).hl.length ≠
      (Editor.undo (Editor.enter stAB)).doc.file.length := by
  refine ⟨?_, ?_, ?_⟩ <;> decide

/-- C9 (amended): keystroke-level mutations notify the tokenizer with
per-line calls keyed by the affected index, but undo, redo and
selection-removal go through `reload_highlight`, which re-sends every buffer
line through `edit` calls: it never changes the tokenizer's line count, and
it reproduces the buffer content on the tokenizer only when the tokenizer's
line count already equals the buffer's. -/
theorem reload_highlight_resends_all_lines (st : EditorState) :
    (Editor.reload_highlight st).hl.length = st.hl.length ∧
    (st.hl.length = st.doc.file.length →
      (Editor.reload_highlight st).hl = st.doc.file) := by
  constructor
  · exact reloadFrom_length st.doc.file 0 st.hl
  · intro hlen
    exact reloadFrom_zero_eq st.doc.file st.hl hlen

theorem reload_highlight_resends_all_lines_witness :
    (Editor.reload_highlight stAB).hl.length = stAB.hl.length ∧
    (Editor.reload_highlight stAB).hl = stAB.doc.file :=
  ⟨(reload_highlight_resends_all_lines stAB).1,
   (reload_highlight_resends_all_lines stAB).2 (by decide)⟩
